import Mathlib

/-!
Shallow embedding of the client-side router in `src/extra/http.ts`
(the route-matching and navigation core of the repository).

Strings are modelled as `List Char`.  JavaScript string operations used by
the source are modelled one by one:
  * `String.prototype.replace` with a string pattern replaces the first
    occurrence only (`replaceFirst`);
  * `replace(new RegExp('[/]*$'), '')` removes the maximal trailing run of
    slashes; `replace(new RegExp('^[/]*'), '')` the leading run;
  * `split('?')[0]` is the prefix before the first `?`.
All definitions are executable so that concrete runs can be settled by
`decide`.
-/

namespace VRouter

/-- `s.replace(pat, rep)` with a string pattern: JavaScript replaces only the
first occurrence of `pat` in `s` (an empty pattern matches at index 0). -/
def replaceFirst (pat rep : List Char) : List Char → List Char
  | [] => if List.isPrefixOf pat [] then rep else []
  | c :: cs =>
    if List.isPrefixOf pat (c :: cs) then rep ++ List.drop pat.length (c :: cs)
    else c :: replaceFirst pat rep cs

/-- Whether `pat` occurs as a contiguous substring of `s` (at any position). -/
def occursIn (pat : List Char) : List Char → Bool
  | [] => List.isPrefixOf pat []
  | c :: cs => List.isPrefixOf pat (c :: cs) || occursIn pat cs

/-- `path.replace(new RegExp('[/]*$'), '')`: drop the maximal trailing run of
slashes. -/
def dropTrailingSlashes (s : List Char) : List Char :=
  (List.dropWhile (fun c => c == '/') s.reverse).reverse

/-- `normalizePath` from the source, with the two globals it reads
(`window.location.origin` and `options.base`) passed explicitly.

```js
path = path.replace(window.location.origin, '')
path = path.replace(options.base, '')
path = path.replace('/?', '?')
path = path.replace(new RegExp('[/]*$'), '')
path = path.replace(new RegExp('^[/]*'), '')
path = ('/' + path).replace('//', '/')
if (removeQuery) { path = path.split('?')[0] }
```
-/
def normalizePath (origin base : List Char) (removeQuery : Bool) (path : List Char) :
    List Char :=
  let p1 := replaceFirst origin [] path
  let p2 := replaceFirst base [] p1
  let p3 := replaceFirst ['/', '?'] ['?'] p2
  let p4 := dropTrailingSlashes p3
  let p5 := List.dropWhile (fun c => c == '/') p4
  let p6 := replaceFirst ['/', '/'] ['/'] ('/' :: p5)
  if removeQuery then List.takeWhile (fun c => c != '?') p6 else p6

/-- Abbreviation used in concrete runs: a fixed page origin. -/
def exOrigin : List Char := "http://localhost".toList

/-! ### Percent decoding (`decodeURIComponent`) -/

/-- Value of one hexadecimal digit (`%XY` digits are case-insensitive). -/
def hexVal (c : Char) : Option Nat :=
  if '0' ≤ c ∧ c ≤ '9' then some (c.toNat - 48)
  else if 'A' ≤ c ∧ c ≤ 'F' then some (c.toNat - 55)
  else if 'a' ≤ c ∧ c ≤ 'f' then some (c.toNat - 87)
  else none

/-- Payload of a UTF-8 continuation byte written as two hex digits; `none`
unless the byte is in `0x80`–`0xBF`. -/
def contVal (h1 h2 : Char) : Option Nat :=
  match hexVal h1, hexVal h2 with
  | some a, some b =>
    let v := 16 * a + b
    if 128 ≤ v ∧ v ≤ 191 then some (v - 128) else none
  | _, _ => none

/-- `decodeURIComponent`: percent escapes decode to bytes that must form
valid UTF-8 (no overlong forms, no surrogates, at most `U+10FFFF`); any
violation throws a `URIError`, modelled as `none`.  Characters outside
escapes pass through unchanged. -/
def decodeURIComponent : List Char → Option (List Char)
  | [] => some []
  | '%' :: h1 :: h2 :: rest =>
    match hexVal h1, hexVal h2 with
    | some a, some b0 =>
      let b := 16 * a + b0
      if b < 128 then
        match decodeURIComponent rest with
        | some out => some (Char.ofNat b :: out)
        | none => none
      else if 194 ≤ b ∧ b ≤ 223 then
        match rest with
        | '%' :: g1 :: g2 :: rest2 =>
          match contVal g1 g2 with
          | some c1 =>
            match decodeURIComponent rest2 with
            | some out => some (Char.ofNat ((b - 192) * 64 + c1) :: out)
            | none => none
          | none => none
        | _ => none
      else if 224 ≤ b ∧ b ≤ 239 then
        match rest with
        | '%' :: g1 :: g2 :: '%' :: g3 :: g4 :: rest2 =>
          match contVal g1 g2, contVal g3 g4 with
          | some c1, some c2 =>
            let cp := (b - 224) * 4096 + c1 * 64 + c2
            if cp < 2048 ∨ (55296 ≤ cp ∧ cp ≤ 57343) then none
            else
              match decodeURIComponent rest2 with
              | some out => some (Char.ofNat cp :: out)
              | none => none
          | _, _ => none
        | _ => none
      else if 240 ≤ b ∧ b ≤ 244 then
        match rest with
        | '%' :: g1 :: g2 :: '%' :: g3 :: g4 :: '%' :: g5 :: g6 :: rest2 =>
          match contVal g1 g2, contVal g3 g4, contVal g5 g6 with
          | some c1, some c2, some c3 =>
            let cp := (b - 240) * 262144 + c1 * 4096 + c2 * 64 + c3
            if cp < 65536 ∨ cp > 1114111 then none
            else
              match decodeURIComponent rest2 with
              | some out => some (Char.ofNat cp :: out)
              | none => none
          | _, _, _ => none
        | _ => none
      else none
    | _, _ => none
  | '%' :: _ => none
  | c :: rest =>
    match decodeURIComponent rest with
    | some out => some (c :: out)
    | none => none

/-! ### Splitting helpers -/

/-- Accumulator worker for `splitOnChar` (JavaScript `String.prototype.split`
with a one-character separator, keeping empty pieces). -/
def splitOnGo (sep : Char) : List Char → List Char → List (List Char)
  | acc, [] => [acc.reverse]
  | acc, c :: cs =>
    if c == sep then acc.reverse :: splitOnGo sep [] cs
    else splitOnGo sep (c :: acc) cs

/-- `s.split(sep)` for a one-character separator; never returns `[]`. -/
def splitOnChar (sep : Char) (s : List Char) : List (List Char) :=
  splitOnGo sep [] s

/-- Accumulator worker for `splitSlash`. -/
def splitSlashGo : List Char → List Char → List (List Char)
  | acc, [] => if acc.isEmpty then [] else [acc.reverse]
  | acc, c :: cs =>
    if c == '/' then
      if acc.isEmpty then splitSlashGo [] cs else acc.reverse :: splitSlashGo [] cs
    else splitSlashGo (c :: acc) cs

/-- `s.split('/').filter(Boolean)`: the maximal runs of non-slash characters. -/
def splitSlash (s : List Char) : List (List Char) :=
  splitSlashGo [] s

/-! ### Query extraction (`queryFor`) -/

/-- ECMAScript `String.prototype.trim` whitespace (WhiteSpace ∪
LineTerminator code points). -/
def isJsWhitespace (c : Char) : Bool :=
  [9, 10, 11, 12, 13, 32, 160, 65279, 5760, 8192, 8193, 8194, 8195, 8196,
   8197, 8198, 8199, 8200, 8201, 8202, 8232, 8233, 8239, 8287, 12288].contains c.toNat

/-- `s.trim()`. -/
def jsTrim (s : List Char) : List Char :=
  ((List.dropWhile isJsWhitespace s).reverse.dropWhile isJsWhitespace).reverse

/-- `search.replace(/^(\?|#|&)/, '')`: strip one leading `?`, `#` or `&`. -/
def stripLead : List Char → List Char
  | [] => []
  | c :: cs => if c == '?' ∨ c == '#' ∨ c == '&' then cs else c :: cs

/-- `param.replace(/\+/g, ' ')` maps every `+` to a space. -/
def plusToSpace (c : Char) : Char :=
  if c == '+' then ' ' else c

/-- The property names a plain JavaScript object (`{}`) inherits from
`Object.prototype`.  For such a key `k`, `query[k] === undefined` is false
even when no own property `k` was ever stored, so the source's duplicate
check treats the key as already present. -/
def protoProps : List (List Char) :=
  ["constructor".toList, "hasOwnProperty".toList, "isPrototypeOf".toList,
   "propertyIsEnumerable".toList, "toLocaleString".toList, "toString".toList,
   "valueOf".toList, "__proto__".toList, "__defineGetter__".toList,
   "__defineSetter__".toList, "__lookupGetter__".toList, "__lookupSetter__".toList]

/-- One `key=value` pair of the query string, as the source computes it:
`+` becomes a space, the pair is split at every `=`, the first piece is the
(percent-decoded) key, the remaining pieces re-joined with `=` are the
(percent-decoded) value, and a pair with no `=` gets a `null` value.
`none` models a `decodeURIComponent` throw. -/
def parseParam (p : List Char) : Option (List Char × Option (List Char)) :=
  match splitOnChar '=' (p.map plusToSpace) with
  | [] => none
  | k :: rest =>
    match decodeURIComponent k with
    | none => none
    | some key =>
      match rest with
      | [] => some (key, none)
      | _ :: _ =>
        match decodeURIComponent (List.intercalate ['='] rest) with
        | none => none
        | some v => some (key, some v)

/-- `query[key] === undefined` is false when `key` is an own key of the
accumulator or a property inherited from `Object.prototype`; only then does
the source store the pair. -/
def queryInsert (acc : List (List Char × Option (List Char)))
    (kv : List Char × Option (List Char)) :
    List (List Char × Option (List Char)) :=
  if protoProps.contains kv.1 ∨ acc.any (fun e => e.1 == kv.1) then acc
  else acc ++ [kv]

/-- The `search.split('&').forEach(...)` loop of `queryFor`; a decode throw
(`none`) aborts the whole traversal, as a thrown `URIError` would. -/
def queryFold (acc : List (List Char × Option (List Char))) :
    List (List Char) → Option (List (List Char × Option (List Char)))
  | [] => some acc
  | p :: ps =>
    match parseParam p with
    | none => none
    | some kv => queryFold (queryInsert acc kv) ps

/-- The raw search string `queryFor` works on: `location.split('?')[1]` when
the location contains a `?` (the piece between the first and second `?`),
then trimmed and with one leading `?`/`#`/`&` stripped. -/
def querySearch (location : List Char) : List Char :=
  let s := if location.contains '?' then (splitOnChar '?' location).getD 1 [] else []
  stripLead (jsTrim s)

/-- `queryFor` from the source: mapping of query key to decoded value
(`none` value = JavaScript `null` for a pair without `=`).  The outer
`none` models a `decodeURIComponent` throw escaping `queryFor`. -/
def queryFor (location : List Char) :
    Option (List (List Char × Option (List Char))) :=
  let search := querySearch location
  if search.isEmpty then some []
  else queryFold [] (splitOnChar '&' search)

/-- The decoded query pairs in order of occurrence, before the source's
duplicate handling — used to state what "first occurrence wins" means. -/
def queryPairs (location : List Char) :
    Option (List (List Char × Option (List Char))) :=
  let search := querySearch location
  if search.isEmpty then some []
  else (splitOnChar '&' search).mapM parseParam

/-- Lookup of a key in the resulting mapping. -/
def assocFind (q : List (List Char × Option (List Char))) (k : List Char) :
    Option (Option (List Char)) :=
  (q.find? (fun e => e.1 == k)).map Prod.snd

/-! ### Param extraction (`paramsFor`) -/

/-- Overwriting assignment `params[key] = value` on a plain object (there is
no duplicate check in `paramsFor`, so a later assignment wins). -/
def assocSet (acc : List (List Char × List Char)) (k v : List Char) :
    List (List Char × List Char) :=
  if acc.any (fun e => e.1 == k) then
    acc.map (fun e => if e.1 == k then (k, v) else e)
  else acc ++ [(k, v)]

/-- The `url.forEach((value, index) => ...)` loop of `paramsFor`. -/
def paramsGo (parts : List (List Char)) :
    List (List Char) → Nat → List (List Char × List Char) →
    Option (List (List Char × List Char))
  | [], _, acc => some acc
  | v :: vs, i, acc =>
    match parts.get? i with
    | some seg =>
      if seg.head? == some ':' then
        match decodeURIComponent v with
        | none => none
        | some d => paramsGo parts vs (i + 1) (assocSet acc (seg.drop 1) d)
      else paramsGo parts vs (i + 1) acc
    | none => paramsGo parts vs (i + 1) acc

/-- `paramsFor(path, match)` from the source: both the matched route's
template and the location are normalized (query dropped) and split into
segments; every template segment starting with `:` binds the positional
location segment, percent-decoded.  `none` models a decode throw. -/
def paramsFor (origin base : List Char) (path matchPath : List Char) :
    Option (List (List Char × List Char)) :=
  let parts := splitSlash (normalizePath origin base true matchPath)
  let url := splitSlash (normalizePath origin base true path)
  paramsGo parts url 0 []

/-! ### Pattern compilation (`add`) and matching

`add` turns the normalized template into a regular expression by replacing
every match of the global pattern `(:[a-zA-Z]+)` — a colon followed by a
maximal run of ASCII letters — with `([^\/]+)`, and matching with
`new RegExp('^' + regex + '$', 'i')`.

The compiled pattern therefore consists of literal characters (matched
case-insensitively because of the `i` flag), the wildcard `.` when the
template contained a dot (a regex metacharacter the source does not
escape), and `([^/]+)` groups.  `Tok` is that pattern language and
`reMatch` its anchored whole-string semantics.  Other unescaped regex
metacharacters (`* + ? ( ) [ ] { } | ^ $ \`) are not modelled; the general
theorems below restrict literal template characters to exclude them. -/

/-- One element of a compiled route pattern. -/
inductive Tok where
  /-- A literal character, matched case-insensitively. -/
  | lit (c : Char)
  /-- The unescaped metacharacter `.`: any character except a line
  terminator. -/
  | dot
  /-- A `([^/]+)` group: one or more non-slash characters. -/
  | capture
deriving DecidableEq, Repr

/-- Whether the next character starts the letter run of a `:name` match. -/
def headIsLetter : List Char → Bool
  | [] => false
  | c :: _ => c.isAlpha

/-- Scanner equivalent of the global replace of `(:[a-zA-Z]+)` by
`([^\/]+)`: the flag records that the previous characters were the letters
of a capture name still being skipped. -/
def tokensGo : Bool → List Char → List Tok
  | _, [] => []
  | inCap, c :: cs =>
    if inCap && c.isAlpha then tokensGo true cs
    else if c == ':' && headIsLetter cs then Tok.capture :: tokensGo true cs
    else if c == '.' then Tok.dot :: tokensGo false cs
    else Tok.lit c :: tokensGo false cs

/-- The compiled pattern of a (already normalized) template string. -/
def tokens (s : List Char) : List Tok :=
  tokensGo false s

/-- ASCII case folding of one character (the folded code point).  This
models the regex `i` flag faithfully whenever the pattern's literal
characters are ASCII: ECMAScript canonicalization maps an ASCII character
to its ASCII upper case, never folds a non-ASCII character to an ASCII one
(such folds are explicitly blocked), and maps a non-ASCII character to a
non-ASCII canonical form — so against an ASCII literal the two sides agree
on every candidate character.  For non-ASCII *pattern* literals JavaScript
also folds non-ASCII case pairs (for example `é`/`É`), which this function
does not; the general compilation theorems therefore restrict template
literals to ASCII. -/
def lowChar (c : Char) : Nat :=
  if 65 ≤ c.toNat ∧ c.toNat ≤ 90 then c.toNat + 32 else c.toNat

/-- JavaScript `.` does not match a line terminator. -/
def isLineTerm (c : Char) : Bool :=
  [10, 13, 8232, 8233].contains c.toNat

/-- Anchored matching of a compiled pattern against a whole string
(`^ ... $`), with `([^/]+)` groups matching greedily-or-not — for a boolean
match only the existence of a split matters. -/
def reMatch : List Tok → List Char → Bool
  | [], [] => true
  | _ :: _, [] => false
  | [], _ :: _ => false
  | t :: ts, x :: xs =>
    match t with
    | Tok.lit c => (lowChar c == lowChar x) && reMatch ts xs
    | Tok.dot => !(isLineTerm x) && reMatch ts xs
    | Tok.capture => !(x == '/') && (reMatch ts xs || reMatch (Tok.capture :: ts) xs)

/-- The test `match` applies for a single registered template: the template
is normalized (query dropped) and compiled at `add` time, the candidate
location is normalized (query dropped) at `match` time. -/
def routeTest (origin base tpl url : List Char) : Bool :=
  reMatch (tokens (normalizePath origin base true tpl))
    (normalizePath origin base true url)

/-! ### Route table -/

/-- A registered route: the normalized template and its compiled pattern
(the other definition fields merged by `Object.assign` play no role in
matching). -/
structure Route where
  path : List Char
  toks : List Tok
deriving DecidableEq, Repr

/-- `add(definition)`: normalize the path, compile the pattern, append. -/
def addRoute (origin base : List Char) (routes : List Route) (defPath : List Char) :
    List Route :=
  let p := normalizePath origin base true defPath
  routes ++ [{ path := p, toks := tokens p }]

/-- The scan of `match`: walk the table in registration order and stop at
the first route whose pattern matches (the source's `for` loop with
`break`). -/
def matchScan (url : List Char) : List Route → Option Route
  | [] => none
  | r :: rs => if reMatch r.toks url then some r else matchScan url rs

/-- `match(path)` from the source: normalize the candidate (dropping the
query), then first-match scan. -/
def matchRoute (routes : List Route) (origin base : List Char) (path : List Char) :
    Option Route :=
  matchScan (normalizePath origin base true path) routes

/-! ### Transition engine (`change`)

Hooks are arbitrary JavaScript callbacks; what the claims observe is which
hook runs, in which order, on which transition, and whether it resolves or
rejects.  A hook is therefore modelled as an identifier plus a flag saying
whether awaiting it throws.  The trace of a run records every hook
invocation and every browser-URL write.

JavaScript semantics note: inside the `try` of `change`, a failing hook is
handled by `catch (error) { return Promise.reject(error) }`.  Returning a
rejected promise from an `async` function is *not* a `throw`: the outer
`catch`/`console.warn` does not run, and the promise returned by `change`
rejects.  A `throw` inside `routeChange` (a failing `history.pushState`,
or a `decodeURIComponent` `URIError` from `queryFor`/`paramsFor`), on the
other hand, propagates to the outer `catch`, which logs a warning and lets
`change` fulfil. -/

/-- A registered hook: an identity and whether awaiting it rejects. -/
structure Hook where
  id : Nat
  throws : Bool
deriving DecidableEq, Repr

/-- The route set as active by a commit, with its query/param snapshot. -/
structure ActiveRoute where
  route : Route
  q : List (List Char × Option (List Char))
  p : List (List Char × List Char)
deriving DecidableEq, Repr

/-- The `change` object passed (as `this`) to every hook. -/
structure Transition where
  previous : Option ActiveRoute
  next : Option Route
  location : List Char
  replace : Bool
deriving DecidableEq, Repr

/-- Observable events of one `change` run. -/
inductive Ev where
  /-- Hook `id` was invoked with the transition as context. -/
  | hook (id : Nat) (t : Transition)
  /-- The browser URL was written (`history.pushState` or the hash). -/
  | write (loc : List Char)
  /-- `console.warn('[V] Route error:', ...)` in the outer catch. -/
  | warn
deriving DecidableEq, Repr

/-- Whether an event is a hook invocation. -/
def isHookEv : Ev → Bool
  | Ev.hook _ _ => true
  | _ => false

/-- Whether an event is a browser-URL write. -/
def isWriteEv : Ev → Bool
  | Ev.write _ => true
  | _ => false

/-- How the promise returned by `change` settles. -/
inductive ChangeResult where
  | fulfilled
  | rejected
deriving DecidableEq, Repr

/-- The module state of the router (`_routes`, `_before`, `_after`,
`_active`, and the mutable `options`).  `modeHistory` is
`options.mode === 'history'`; `origin` is `window.location.origin`. -/
structure RouterState where
  routes : List Route
  beforeHooks : List Hook
  afterHooks : List Hook
  active : Option ActiveRoute
  prevent : Bool
  modeHistory : Bool
  origin : List Char
  base : List Char
deriving DecidableEq, Repr

/-- `beforeChange(callback)`: push onto `_before`. -/
def beforeChange (s : RouterState) (h : Hook) : RouterState :=
  { s with beforeHooks := s.beforeHooks ++ [h] }

/-- `afterChange(callback)`: push onto `_after`. -/
def afterChange (s : RouterState) (h : Hook) : RouterState :=
  { s with afterHooks := s.afterHooks ++ [h] }

/-- One `for (const callback of hooks) { try { await callback.apply(t) }
catch { return Promise.reject } }` loop: invoke hooks sequentially until
one rejects; the result flag is false when one did. -/
def runHooks (hooks : List Hook) (t : Transition) : List Ev × Bool :=
  match hooks with
  | [] => ([], true)
  | h :: hs =>
    if h.throws then ([Ev.hook h.id t], false)
    else
      let r := runHooks hs t
      (Ev.hook h.id t :: r.1, r.2)

/-- The transition object built by `change`: `previous` is the active
route, `next` the match result, `location` the normalized location with
query kept. -/
def mkTransition (s : RouterState) (loc : List Char) (replace : Bool) : Transition :=
  let location := normalizePath s.origin s.base false loc
  { previous := s.active
    next := matchRoute s.routes s.origin s.base location
    location := location
    replace := replace }

/-- Second half of `routeChange`: clear the active route when nothing
matched, otherwise compute the query/param snapshot (either decode may
throw — flag false) and activate the matched route. -/
def commitNext (s : RouterState) (t : Transition) (evs : List Ev) :
    RouterState × List Ev × Bool :=
  match t.next with
  | none => ({ s with active := none }, evs, true)
  | some r =>
    match queryFor t.location, paramsFor s.origin s.base t.location r.path with
    | some q, some p =>
      ({ s with active := some { route := r, q := q, p := p } }, evs, true)
    | _, _ => (s, evs, false)

/-- The `routeChange` closure applied during commit.  `writeThrows` says
whether the browser-URL write itself throws; when it does, the reset of
`options.prevent` is skipped and the throw escapes to the outer catch. -/
def routeChange (s : RouterState) (writeThrows : Bool) (t : Transition) :
    RouterState × List Ev × Bool :=
  if t.replace then
    if writeThrows then ({ s with prevent := true }, [Ev.write t.location], false)
    else commitNext { s with prevent := false } t [Ev.write t.location]
  else commitNext s t []

/-- `change(location, replace?)`.  Returns the final module state, how the
returned promise settles, and the event trace.  Note the two hook loops
both iterate `_after` — the source never reads `_before` here. -/
def change (s : RouterState) (writeThrows : Bool) (loc : List Char) (replace : Bool) :
    RouterState × ChangeResult × List Ev :=
  let t := mkTransition s loc replace
  match runHooks s.afterHooks t with
  | (tr1, false) => (s, ChangeResult.rejected, tr1)
  | (tr1, true) =>
    match routeChange s writeThrows t with
    | (s2, tr2, false) => (s2, ChangeResult.fulfilled, tr1 ++ tr2 ++ [Ev.warn])
    | (s2, tr2, true) =>
      match runHooks s.afterHooks t with
      | (tr3, false) => (s2, ChangeResult.rejected, tr1 ++ tr2 ++ tr3)
      | (tr3, true) => (s2, ChangeResult.fulfilled, tr1 ++ tr2 ++ tr3)

/-- `redirect(toLocation)` = `change(toLocation, true)`. -/
def redirect (s : RouterState) (writeThrows : Bool) (loc : List Char) :
    RouterState × ChangeResult × List Ev :=
  change s writeThrows loc true

/-- A fresh router state over a given origin, as at module load. -/
def initState (origin : List Char) : RouterState :=
  { routes := [], beforeHooks := [], afterHooks := [], active := none,
    prevent := false, modeHistory := true, origin := origin, base := [] }

/-- The expected trace of one loop over the after-hooks when none rejects. -/
def afterTrace (hooks : List Hook) (t : Transition) : List Ev :=
  hooks.map (fun h => Ev.hook h.id t)

/-! ### Segment views and canonical paths (used to state the claims) -/

/-- The path made of the given segments: `/` when there are none, otherwise
`/seg1/seg2/...`. -/
def pathOfSegs (segs : List (List Char)) : List Char :=
  match segs with
  | [] => ['/']
  | _ :: _ => (segs.map (fun s => '/' :: s)).flatten

/-- A capture segment of a template: `:` followed by one or more ASCII
letters (the only form the source's `(:[a-zA-Z]+)` rewriting turns into a
whole-segment capture). -/
def isCapSeg : List Char → Bool
  | [] => false
  | c :: name => c == ':' && !name.isEmpty && name.all (fun d => d.isAlpha)

/-- A literal template character that the compiled regular expression
matches as itself: not a slash and not one of the regex metacharacters the
source leaves unescaped (nor `:`, which could start a capture). -/
def safeLitChar (c : Char) : Bool :=
  !(c == '/') && !(c == ':') && !(c == '.') && !(c == '\\') && !(c == '*') &&
  !(c == '+') && !(c == '?') && !(c == '(') && !(c == ')') && !(c == '[') &&
  !(c == ']') && !(c == '{') && !(c == '}') && !(c == '|') && !(c == '^') &&
  !(c == '$')

/-- A literal (non-capture) template segment: nonempty and made of safe
literal characters only. -/
def isLitSeg (s : List Char) : Bool :=
  !s.isEmpty && s.all safeLitChar

/-- A template segment the compiled pattern treats per the spec: either a
capture or a literal segment. -/
def segOk (s : List Char) : Bool :=
  isCapSeg s || isLitSeg s

/-- ASCII-case-insensitive equality of two strings. -/
def lowerEqB : List Char → List Char → Bool
  | [], [] => true
  | a :: as', b :: bs => (lowChar a == lowChar b) && lowerEqB as' bs
  | _, _ => false

/-- Pointwise alignment of two lists under a boolean relation (false when
the lengths differ). -/
def alignb (f : List Char → List Char → Bool) :
    List (List Char) → List (List Char) → Bool
  | [], [] => true
  | a :: as', b :: bs => f a b && alignb f as' bs
  | _, _ => false

/-- How one template segment relates to one location segment: a capture
accepts any (nonempty, slash-free) segment, a literal segment must be equal
up to ASCII case. -/
def segMatches (s u : List Char) : Bool :=
  if isCapSeg s then true else lowerEqB s u

/-- A path already in the canonical form `normalizePath` aims for, over the
given globals: stripping the origin and the base changes nothing, there is
no `/?` and no `//` occurrence, it starts with `/`, it does not end with a
slash (except the bare `/`), and — when queries are being dropped — it
contains no `?`.  On such a path every step of `normalizePath` is the
identity. -/
def normalForm (origin base : List Char) (removeQuery : Bool) (y : List Char) : Bool :=
  (replaceFirst origin [] y == y) && (replaceFirst base [] y == y) &&
  !(occursIn ['/', '?'] y) && (y.head? == some '/') &&
  !(occursIn ['/', '/'] y) && ((y == ['/']) || !(y.getLast? == some '/')) &&
  (!removeQuery || y.all (fun c => c != '?'))

/-- The path of a nonempty list of segments, `('/'+seg)` pieces
concatenated. -/
def flatPath (segs : List (List Char)) : List Char :=
  (segs.map (fun s => '/' :: s)).flatten

/-- The compiled tokens of one template segment: a capture segment becomes
one `([^/]+)` group, a literal segment its characters. -/
def segToks (s : List Char) : List Tok :=
  if isCapSeg s then [Tok.capture] else s.map Tok.lit

/-- The compiled tokens of a template given by its segments. -/
def flatToks (segs : List (List Char)) : List Tok :=
  (segs.map (fun s => Tok.lit '/' :: segToks s)).flatten

/-- Template well-formedness for the general compilation theorems: every
segment is a capture or a safe literal segment. -/
def segsOkT (ts : List (List Char)) : Bool :=
  ts.all segOk

/-- Location well-formedness: every segment nonempty and slash-free. -/
def segsOkU (us : List (List Char)) : Bool :=
  us.all (fun u => !u.isEmpty && u.all (fun c => !(c == '/')))

/-- Every character of every segment is ASCII.  On templates this is the
domain where `lowChar` coincides with the `i` flag's canonicalization:
JavaScript never folds a non-ASCII character to an ASCII one, so an ASCII
literal matches exactly the candidates its ASCII fold accepts. -/
def segsAscii (ss : List (List Char)) : Bool :=
  ss.all (fun s => s.all (fun c => c.toNat < 128))

/-! ### Concrete states used in counterexamples and witnesses -/

/-- Two resolving after-hooks registered via `afterChange`. -/
def exStateA : RouterState :=
  afterChange (afterChange (initState exOrigin) { id := 0, throws := false })
    { id := 1, throws := false }

/-- One rejecting after-hook registered via `afterChange`. -/
def exStateB : RouterState :=
  afterChange (initState exOrigin) { id := 0, throws := true }

/-- One resolving before-hook registered via `beforeChange`. -/
def exStateC : RouterState :=
  beforeChange (initState exOrigin) { id := 7, throws := false }

/-- A one-route table registered through `add`. -/
def exRoutes1 : List Route :=
  addRoute exOrigin [] [] "/a".toList

/-! ### Lemmas: `replaceFirst` and `normalizePath` -/

theorem replaceFirst_of_not_occursIn (pat rep s : List Char)
    (h : occursIn pat s = false) : replaceFirst pat rep s = s := by
  induction s with
  | nil =>
    simp only [occursIn] at h
    simp [replaceFirst, h]
  | cons c cs ih =>
    simp only [occursIn, Bool.or_eq_false_iff] at h
    simp [replaceFirst, h.1, ih h.2]

theorem dropTrailingSlashes_eq_self (s : List Char) (h : s.getLast? ≠ some '/') :
    dropTrailingSlashes s = s := by
  unfold dropTrailingSlashes
  have h' : s.reverse.head? ≠ some '/' := by
    rw [List.head?_reverse]; exact h
  cases hr : s.reverse with
  | nil =>
    have hs : s = [] := by
      have := congrArg List.reverse hr
      simpa using this
    simp [hs]
  | cons a t =>
    rw [hr] at h'
    have ha : (a == '/') = false := by
      simp only [List.head?_cons, ne_eq, Option.some.injEq] at h'
      exact beq_eq_false_iff_ne.mpr h'
    rw [List.dropWhile_cons, ha]
    simp only [Bool.false_eq_true, if_false]
    have := congrArg List.reverse hr
    simpa using this.symm

theorem takeWhile_eq_self_of_all (p : Char → Bool) (s : List Char)
    (h : ∀ c ∈ s, p c = true) : List.takeWhile p s = s := by
  induction s with
  | nil => rfl
  | cons c cs ih =>
    rw [List.takeWhile_cons, h c (by simp)]
    simp only [if_true, List.cons.injEq, true_and]
    exact ih fun d hd => h d (by simp [hd])

/-- On a path already in canonical form, every step of `normalizePath` is
the identity. -/
theorem normalizePath_fixed (origin base : List Char) (rq : Bool) (y : List Char)
    (h : normalForm origin base rq y = true) : normalizePath origin base rq y = y := by
  unfold normalForm at h
  simp only [Bool.and_eq_true, beq_iff_eq, Bool.not_eq_true', Bool.or_eq_true,
    Bool.not_eq_true] at h
  obtain ⟨⟨⟨⟨⟨⟨h1, h2⟩, h3⟩, h4⟩, h5⟩, h6⟩, h7⟩ := h
  obtain ⟨ys, rfl⟩ : ∃ ys, y = '/' :: ys := by
    cases y with
    | nil => simp at h4
    | cons c cs =>
      refine ⟨cs, ?_⟩
      have hc : c = '/' := by simpa using h4
      rw [hc]
  cases ys with
  | nil =>
    simp only [normalizePath]
    rw [h1, h2, replaceFirst_of_not_occursIn _ _ _ h3]
    cases rq <;> rfl
  | cons d t =>
    have hlast : ('/' :: d :: t).getLast? ≠ some '/' := by
      rcases h6 with h6 | h6
      · simp at h6
      · exact beq_eq_false_iff_ne.mp h6
    have hd : (d == '/') = false := by
      simp only [occursIn, Bool.or_eq_false_iff] at h5
      have hp := h5.1
      simp only [List.isPrefixOf, beq_self_eq_true, Bool.true_and, Bool.and_true] at hp
      have : ('/' : Char) ≠ d := beq_eq_false_iff_ne.mp (by simpa using hp)
      exact beq_eq_false_iff_ne.mpr (Ne.symm this)
    simp only [normalizePath]
    rw [h1, h2, replaceFirst_of_not_occursIn _ _ _ h3,
      dropTrailingSlashes_eq_self _ hlast]
    rw [List.dropWhile_cons]
    simp only [beq_self_eq_true, if_true, List.dropWhile_cons, hd,
      Bool.false_eq_true, if_false]
    rw [replaceFirst_of_not_occursIn _ _ _ h5]
    cases rq with
    | false => rfl
    | true =>
      simp only [if_true]
      rcases h7 with h7 | h7
      · cases h7
      · exact takeWhile_eq_self_of_all _ _ (List.all_eq_true.mp h7)

theorem head_dropWhile_false (p : Char → Bool) (l : List Char) (a : Char)
    (h : (List.dropWhile p l).head? = some a) : p a = false := by
  induction l with
  | nil => simp at h
  | cons c cs ih =>
    rw [List.dropWhile_cons] at h
    cases hpc : p c with
    | true => rw [hpc] at h; simp only [if_true] at h; exact ih h
    | false =>
      rw [hpc] at h
      simp only [Bool.false_eq_true, if_false, List.head?_cons, Option.some.injEq] at h
      rw [← h]; exact hpc

theorem replaceFirst_cons_of_miss (pat rep : List Char) (c : Char) (cs : List Char)
    (h : List.isPrefixOf pat (c :: cs) = false) :
    replaceFirst pat rep (c :: cs) = c :: replaceFirst pat rep cs := by
  simp [replaceFirst, h]

/-- Structure every `normalizePath` result with the query dropped does
have: nonempty, headed by exactly one `/`, and query-free. -/
theorem normalizePath_shape (origin base x : List Char) :
    (normalizePath origin base true x).isEmpty = false ∧
    (normalizePath origin base true x).head? = some '/' ∧
    List.isPrefixOf ['/', '/'] (normalizePath origin base true x) = false ∧
    (normalizePath origin base true x).all (fun c => c != '?') = true := by
  have hrw : normalizePath origin base true x =
      List.takeWhile (fun c => c != '?')
        (replaceFirst ['/', '/'] ['/']
          ('/' :: List.dropWhile (fun c => c == '/')
            (dropTrailingSlashes
              (replaceFirst ['/', '?'] ['?']
                (replaceFirst base [] (replaceFirst origin [] x)))))) := rfl
  rw [hrw]
  have hgen : ∀ p5 : List Char, (∀ a, p5.head? = some a → (a == '/') = false) →
      (List.takeWhile (fun c => c != '?')
        (replaceFirst ['/', '/'] ['/'] ('/' :: p5))).isEmpty = false ∧
      (List.takeWhile (fun c => c != '?')
        (replaceFirst ['/', '/'] ['/'] ('/' :: p5))).head? = some '/' ∧
      List.isPrefixOf ['/', '/'] (List.takeWhile (fun c => c != '?')
        (replaceFirst ['/', '/'] ['/'] ('/' :: p5))) = false ∧
      (List.takeWhile (fun c => c != '?')
        (replaceFirst ['/', '/'] ['/'] ('/' :: p5))).all (fun c => c != '?') = true := by
    intro p5 hp5
    have hall : ∀ l : List Char,
        (List.takeWhile (fun c => c != '?') l).all (fun c => c != '?') = true := by
      intro l
      exact List.all_eq_true.mpr fun c hc => List.mem_takeWhile_imp (p := fun d => d != '?') hc
    cases p5 with
    | nil => refine ⟨by decide, by decide, by decide, hall _⟩
    | cons a as =>
      have ha : (a == '/') = false := hp5 a rfl
      have hsym : ('/' == a) = false :=
        beq_eq_false_iff_ne.mpr (Ne.symm (beq_eq_false_iff_ne.mp ha))
      have hnp1 : List.isPrefixOf ['/', '/'] ('/' :: a :: as) = false := by
        simp [List.isPrefixOf, hsym]
      have hnp2 : List.isPrefixOf ['/', '/'] (a :: as) = false := by
        simp [List.isPrefixOf, hsym]
      rw [replaceFirst_cons_of_miss _ _ _ _ hnp1, replaceFirst_cons_of_miss _ _ _ _ hnp2]
      rw [List.takeWhile_cons]
      simp only [show (('/' : Char) != '?') = true from rfl, if_true]
      refine ⟨rfl, rfl, ?_, hall _⟩
      rw [List.takeWhile_cons]
      cases haq : (a != '?') with
      | false => simp [List.isPrefixOf]
      | true =>
        simp only [if_true]
        simp [List.isPrefixOf, hsym]
  exact hgen _ fun a h =>
    head_dropWhile_false _ _ a h

/-! ### Lemmas: compiled patterns and matching -/

theorem reMatch_lit_cons (c : Char) (ts : List Tok) (x : Char) (xs : List Char) :
    reMatch (Tok.lit c :: ts) (x :: xs) = ((lowChar c == lowChar x) && reMatch ts xs) := rfl

theorem reMatch_cap_cons (ts : List Tok) (x : Char) (xs : List Char) :
    reMatch (Tok.capture :: ts) (x :: xs)
      = (!(x == '/') && (reMatch ts xs || reMatch (Tok.capture :: ts) xs)) := rfl

theorem reMatch_cons_nil (t : Tok) (ts : List Tok) : reMatch (t :: ts) [] = false := rfl

theorem reMatch_nil_cons (x : Char) (xs : List Char) : reMatch [] (x :: xs) = false := rfl

theorem lowChar_eq_47_iff (c : Char) : lowChar c = 47 ↔ c = '/' := by
  unfold lowChar
  split_ifs with h
  · constructor
    · intro hc; omega
    · intro hc; subst hc; simp at h
  · constructor
    · intro hc; exact Char.eq_of_val_eq (UInt32.ext hc)
    · intro hc; subst hc; rfl

theorem lowChar_slash_ne (x : Char) (hx : (x == '/') = false) :
    (lowChar '/' == lowChar x) = false := by
  have : lowChar x ≠ 47 := fun hc => absurd ((lowChar_eq_47_iff x).mp hc)
    (beq_eq_false_iff_ne.mp hx)
  have h47 : lowChar '/' = 47 := rfl
  rw [h47]
  exact beq_eq_false_iff_ne.mpr fun he => this he.symm

theorem lowChar_ne_slash (c : Char) (hc : (c == '/') = false) :
    (lowChar c == lowChar '/') = false := by
  have : lowChar c ≠ 47 := fun h => absurd ((lowChar_eq_47_iff c).mp h)
    (beq_eq_false_iff_ne.mp hc)
  have h47 : lowChar '/' = 47 := rfl
  rw [h47]
  exact beq_eq_false_iff_ne.mpr this

theorem safeLitChar_facts (c : Char) (h : safeLitChar c = true) :
    (c == '/') = false ∧ (c == ':') = false ∧ (c == '.') = false := by
  unfold safeLitChar at h
  simp only [Bool.and_eq_true, Bool.not_eq_true'] at h
  exact ⟨h.1.1.1.1.1.1.1.1.1.1.1.1.1.1.1, h.1.1.1.1.1.1.1.1.1.1.1.1.1.1.2,
    h.1.1.1.1.1.1.1.1.1.1.1.1.1.2⟩

theorem tokensGo_not_alpha (c : Char) (cs : List Char) (h : c.isAlpha = false) :
    tokensGo true (c :: cs) = tokensGo false (c :: cs) := by
  simp [tokensGo, h]

theorem tokensGo_true_alpha (c : Char) (cs : List Char) (h : c.isAlpha = true) :
    tokensGo true (c :: cs) = tokensGo true cs := by
  simp [tokensGo, h]

theorem tokensGo_false_colon (cs : List Char) (h : headIsLetter cs = true) :
    tokensGo false (':' :: cs) = Tok.capture :: tokensGo true cs := by
  simp [tokensGo, h]

theorem tokensGo_false_lit (c : Char) (cs : List Char)
    (h2 : (c == ':') = false) (h3 : (c == '.') = false) :
    tokensGo false (c :: cs) = Tok.lit c :: tokensGo false cs := by
  simp [tokensGo, h2, h3]

theorem tokensGo_skip_letters (name rest : List Char)
    (h : ∀ c ∈ name, c.isAlpha = true) :
    tokensGo true (name ++ rest) = tokensGo true rest := by
  induction name with
  | nil => rfl
  | cons c cs ih =>
    rw [List.cons_append, tokensGo_true_alpha c _ (h c (by simp))]
    exact ih fun d hd => h d (by simp [hd])

theorem tokens_cons_cap (name rest : List Char)
    (hne : name ≠ []) (hα : ∀ c ∈ name, c.isAlpha = true)
    (hrest : rest = [] ∨ ∃ r', rest = '/' :: r') :
    tokensGo false (':' :: (name ++ rest)) = Tok.capture :: tokensGo false rest := by
  have hhead : headIsLetter (name ++ rest) = true := by
    cases name with
    | nil => exact absurd rfl hne
    | cons n0 name' => simp [headIsLetter, hα n0 (by simp)]
  rw [tokensGo_false_colon _ hhead, tokensGo_skip_letters _ _ hα]
  rcases hrest with rfl | ⟨r', rfl⟩
  · rfl
  · exact congrArg _ (tokensGo_not_alpha '/' r' (by decide))

theorem tokens_cons_lit (s rest : List Char) (hs : ∀ c ∈ s, safeLitChar c = true) :
    tokensGo false (s ++ rest) = s.map Tok.lit ++ tokensGo false rest := by
  induction s with
  | nil => rfl
  | cons c cs ih =>
    obtain ⟨h1, h2, h3⟩ := safeLitChar_facts c (hs c (by simp))
    rw [List.cons_append, tokensGo_false_lit c _ h2 h3,
      ih fun d hd => hs d (by simp [hd])]
    rfl

theorem isCapSeg_iff (s : List Char) (h : isCapSeg s = true) :
    ∃ name, s = ':' :: name ∧ name ≠ [] ∧ ∀ c ∈ name, c.isAlpha = true := by
  cases s with
  | nil => simp [isCapSeg] at h
  | cons c name =>
    simp only [isCapSeg, Bool.and_eq_true, beq_iff_eq, Bool.not_eq_true'] at h
    obtain ⟨⟨hc, hne⟩, hall⟩ := h
    exact ⟨name, by rw [hc], by simpa [List.isEmpty_iff] using hne,
      List.all_eq_true.mp hall⟩

theorem isLitSeg_iff (s : List Char) (h : isLitSeg s = true) :
    s ≠ [] ∧ ∀ c ∈ s, safeLitChar c = true := by
  simp only [isLitSeg, Bool.and_eq_true, Bool.not_eq_true'] at h
  exact ⟨by simpa [List.isEmpty_iff] using h.1, List.all_eq_true.mp h.2⟩

theorem flatPath_cons (u : List Char) (us : List (List Char)) :
    flatPath (u :: us) = '/' :: (u ++ flatPath us) := by
  simp [flatPath]

theorem flatToks_cons (s : List Char) (ts : List (List Char)) :
    flatToks (s :: ts) = Tok.lit '/' :: (segToks s ++ flatToks ts) := by
  simp [flatToks]

theorem flatPath_shape (us : List (List Char)) :
    flatPath us = [] ∨ ∃ r, flatPath us = '/' :: r := by
  cases us with
  | nil => exact Or.inl rfl
  | cons u us' => exact Or.inr ⟨u ++ flatPath us', flatPath_cons u us'⟩

theorem flatToks_shape (ts : List (List Char)) :
    flatToks ts = [] ∨ ∃ r, flatToks ts = Tok.lit '/' :: r := by
  cases ts with
  | nil => exact Or.inl rfl
  | cons s ts' => exact Or.inr ⟨segToks s ++ flatToks ts', flatToks_cons s ts'⟩

/-- Compilation distributes over the segments of a well-formed template. -/
theorem tokens_flat (ts : List (List Char)) (h : ∀ s ∈ ts, segOk s = true) :
    tokensGo false (flatPath ts) = flatToks ts := by
  induction ts with
  | nil => rfl
  | cons s ts' ih =>
    have hs : segOk s = true := h s (by simp)
    have hrest : flatPath ts' = [] ∨ ∃ r', flatPath ts' = '/' :: r' := flatPath_shape ts'
    have ih' := ih fun x hx => h x (by simp [hx])
    rw [flatPath_cons, flatToks_cons]
    cases hcap : isCapSeg s with
    | true =>
      obtain ⟨name, rfl, hne, hα⟩ := isCapSeg_iff s hcap
      rw [tokensGo_false_lit '/' _ (by decide) (by decide), List.cons_append,
        tokens_cons_cap name _ hne hα hrest, ih']
      simp [segToks, hcap]
    | false =>
      have hlit : isLitSeg s = true := by
        simp only [segOk, hcap, Bool.false_or] at hs
        exact hs
      obtain ⟨-, hsafe⟩ := isLitSeg_iff s hlit
      rw [tokensGo_false_lit '/' _ (by decide) (by decide),
        tokens_cons_lit s _ hsafe, ih']
      simp [segToks, hcap]

/-- A `([^/]+)` group standing before a segment boundary absorbs exactly
the current (nonempty, slash-free) segment. -/
theorem reMatch_capture_seg (u : List Char) (T : List Tok) (U : List Char)
    (hu : u ≠ []) (hslash : ∀ c ∈ u, (c == '/') = false)
    (hT : T = [] ∨ ∃ T', T = Tok.lit '/' :: T')
    (hU : U = [] ∨ ∃ U', U = '/' :: U') :
    reMatch (Tok.capture :: T) (u ++ U) = reMatch T U := by
  induction u with
  | nil => exact absurd rfl hu
  | cons x xs ih =>
    have hx : (x == '/') = false := hslash x (by simp)
    rw [List.cons_append, reMatch_cap_cons, hx]
    simp only [Bool.not_false, Bool.true_and]
    cases xs with
    | nil =>
      simp only [List.nil_append]
      have hz : reMatch (Tok.capture :: T) U = false := by
        rcases hU with rfl | ⟨U', rfl⟩
        · rfl
        · rw [reMatch_cap_cons]
          simp
      rw [hz, Bool.or_false]
    | cons x2 xs2 =>
      have h2 : reMatch T ((x2 :: xs2) ++ U) = false := by
        rcases hT with rfl | ⟨T', rfl⟩
        · rw [List.cons_append, reMatch_nil_cons]
        · rw [List.cons_append, reMatch_lit_cons,
            lowChar_slash_ne x2 (hslash x2 (by simp))]
          rfl
      rw [h2, Bool.false_or]
      exact ih (by simp) fun c hc => hslash c (by simp [hc])

/-- A run of literal tokens standing before a segment boundary matches
exactly the current slash-free segment, case-insensitively. -/
theorem reMatch_lit_seg (s : List Char) (u : List Char) (T : List Tok) (U : List Char)
    (hs : ∀ c ∈ s, safeLitChar c = true)
    (hslash : ∀ c ∈ u, (c == '/') = false)
    (hT : T = [] ∨ ∃ T', T = Tok.lit '/' :: T')
    (hU : U = [] ∨ ∃ U', U = '/' :: U') :
    reMatch (s.map Tok.lit ++ T) (u ++ U) = (lowerEqB s u && reMatch T U) := by
  induction s generalizing u with
  | nil =>
    cases u with
    | nil => simp [lowerEqB]
    | cons x xs =>
      have hx : (x == '/') = false := hslash x (by simp)
      have hres : reMatch T ((x :: xs) ++ U) = false := by
        rcases hT with rfl | ⟨T', rfl⟩
        · rw [List.cons_append, reMatch_nil_cons]
        · rw [List.cons_append, reMatch_lit_cons, lowChar_slash_ne x hx]
          rfl
      simp only [List.map_nil, List.nil_append, hres, lowerEqB, Bool.false_and]
  | cons c s' ih =>
    have hc : safeLitChar c = true := hs c (by simp)
    cases u with
    | nil =>
      have hres : reMatch ((c :: s').map Tok.lit ++ T) U = false := by
        rcases hU with rfl | ⟨U', rfl⟩
        · rw [List.map_cons, List.cons_append, reMatch_cons_nil]
        · rw [List.map_cons, List.cons_append, reMatch_lit_cons,
            lowChar_ne_slash c (safeLitChar_facts c hc).1]
          rfl
      simp only [List.nil_append, hres, lowerEqB, Bool.false_and]
    | cons x xs =>
      rw [List.map_cons, List.cons_append, List.cons_append, reMatch_lit_cons,
        ih xs (fun d hd => hs d (by simp [hd])) (fun d hd => hslash d (by simp [hd]))]
      have hstep : lowerEqB (c :: s') (x :: xs)
          = ((lowChar c == lowChar x) && lowerEqB s' xs) := rfl
      rw [hstep, Bool.and_assoc]

/-- The compiled tokens of a segment list match a candidate segment path
exactly when the segments align pointwise. -/
theorem reMatch_flat (ts us : List (List Char))
    (hts : ∀ s ∈ ts, segOk s = true)
    (hus : ∀ u ∈ us, u ≠ [] ∧ ∀ c ∈ u, (c == '/') = false) :
    reMatch (flatToks ts) (flatPath us) = alignb segMatches ts us := by
  induction ts generalizing us with
  | nil =>
    cases us with
    | nil => rfl
    | cons u us' =>
      rw [flatPath_cons]
      show reMatch [] ('/' :: (u ++ flatPath us')) = false
      rw [reMatch_nil_cons]
  | cons s ts' ih =>
    cases us with
    | nil =>
      rw [flatToks_cons]
      show reMatch (Tok.lit '/' :: (segToks s ++ flatToks ts')) [] = false
      rw [reMatch_cons_nil]
    | cons u us' =>
      have hu := hus u (by simp)
      have hus' : ∀ v ∈ us', v ≠ [] ∧ ∀ c ∈ v, (c == '/') = false :=
        fun v hv => hus v (by simp [hv])
      have hts' : ∀ x ∈ ts', segOk x = true := fun x hx => hts x (by simp [hx])
      have hT := flatToks_shape ts'
      have hU := flatPath_shape us'
      rw [flatToks_cons, flatPath_cons, reMatch_lit_cons]
      have h47 : (lowChar '/' == lowChar '/') = true := rfl
      rw [h47, Bool.true_and]
      cases hcap : isCapSeg s with
      | true =>
        have hseg : segToks s = [Tok.capture] := by simp [segToks, hcap]
        rw [hseg, List.singleton_append,
          reMatch_capture_seg u _ _ hu.1 hu.2 hT hU, ih us' hts' hus']
        have : segMatches s u = true := by simp [segMatches, hcap]
        show alignb segMatches ts' us' = alignb segMatches (s :: ts') (u :: us')
        rw [show alignb segMatches (s :: ts') (u :: us')
            = (segMatches s u && alignb segMatches ts' us') from rfl, this,
          Bool.true_and]
      | false =>
        have hlit : isLitSeg s = true := by
          have hs := hts s (by simp)
          simp only [segOk, hcap, Bool.false_or] at hs
          exact hs
        obtain ⟨-, hsafe⟩ := isLitSeg_iff s hlit
        have hseg : segToks s = s.map Tok.lit := by simp [segToks, hcap]
        rw [hseg, reMatch_lit_seg s u _ _ hsafe hu.2 hT hU, ih us' hts' hus']
        have : segMatches s u = lowerEqB s u := by simp [segMatches, hcap]
        show (lowerEqB s u && alignb segMatches ts' us')
            = alignb segMatches (s :: ts') (u :: us')
        rw [show alignb segMatches (s :: ts') (u :: us')
            = (segMatches s u && alignb segMatches ts' us') from rfl, this]

/-- Central characterization: for a well-formed template and a slash-free
segmented candidate, the compiled pattern of `pathOfSegs ts` matches
`pathOfSegs us` exactly when the segment lists align. -/
theorem reMatch_tokens_pathOfSegs (ts us : List (List Char))
    (hts : segsOkT ts = true) (hus : segsOkU us = true) :
    reMatch (tokens (pathOfSegs ts)) (pathOfSegs us) = alignb segMatches ts us := by
  have hts' : ∀ s ∈ ts, segOk s = true :=
    List.all_eq_true.mp hts
  have hus' : ∀ u ∈ us, u ≠ [] ∧ ∀ c ∈ u, (c == '/') = false := by
    intro u hu
    have := List.all_eq_true.mp hus u hu
    simp only [Bool.and_eq_true, Bool.not_eq_true'] at this
    refine ⟨by simpa [List.isEmpty_iff] using this.1, ?_⟩
    intro c hc
    have := List.all_eq_true.mp this.2 c hc
    simpa using this
  cases ts with
  | nil =>
    cases us with
    | nil => rfl
    | cons u us' =>
      obtain ⟨hne, -⟩ := hus' u (by simp)
      show reMatch (tokens ['/']) (flatPath (u :: us')) = _
      rw [flatPath_cons]
      cases u with
      | nil => exact absurd rfl hne
      | cons x xs =>
        show reMatch [Tok.lit '/'] ('/' :: ((x :: xs) ++ flatPath us')) = _
        rw [reMatch_lit_cons, List.cons_append, reMatch_nil_cons]
        rfl
  | cons s ts' =>
    cases us with
    | nil =>
      show reMatch (tokens (flatPath (s :: ts'))) ['/'] = _
      rw [show tokens (flatPath (s :: ts')) = tokensGo false (flatPath (s :: ts'))
          from rfl, tokens_flat _ hts', flatToks_cons, reMatch_lit_cons]
      have hne : segToks s ++ flatToks ts' ≠ [] := by
        cases hcap : isCapSeg s with
        | true => simp [segToks, hcap]
        | false =>
          have hlit : isLitSeg s = true := by
            have hx := hts' s (by simp)
            simp only [segOk, hcap, Bool.false_or] at hx
            exact hx
          obtain ⟨hne', -⟩ := isLitSeg_iff s hlit
          simp [segToks, hcap, hne']
      cases hv : segToks s ++ flatToks ts' with
      | nil => exact absurd hv hne
      | cons a l =>
        rw [reMatch_cons_nil]
        rfl
    | cons u us' =>
      show reMatch (tokens (flatPath (s :: ts'))) (flatPath (u :: us')) = _
      rw [show tokens (flatPath (s :: ts')) = tokensGo false (flatPath (s :: ts'))
          from rfl, tokens_flat _ hts']
      exact reMatch_flat _ _ hts' hus'

/-- `alignb` forces equal lengths. -/
theorem alignb_ne_length (f : List Char → List Char → Bool)
    (ts us : List (List Char)) (h : ts.length ≠ us.length) :
    alignb f ts us = false := by
  induction ts generalizing us with
  | nil =>
    cases us with
    | nil => exact absurd rfl h
    | cons u us' => rfl
  | cons s ts' ih =>
    cases us with
    | nil => rfl
    | cons u us' =>
      show (f s u && alignb f ts' us') = false
      rw [ih us' (by simpa using h)]
      exact Bool.and_false _

/-! ### Lemmas: first-match scan -/

theorem matchScan_eq_none_iff (url : List Char) (routes : List Route) :
    matchScan url routes = none ↔ ∀ r ∈ routes, reMatch r.toks url = false := by
  induction routes with
  | nil => simp [matchScan]
  | cons r rs ih =>
    cases hr : reMatch r.toks url with
    | true => simp [matchScan, hr]
    | false => simp [matchScan, hr, ih]

theorem matchScan_eq_some (url : List Char) (routes : List Route) (r : Route)
    (h : matchScan url routes = some r) :
    ∃ i : Fin routes.length, routes.get i = r ∧ reMatch r.toks url = true ∧
      ∀ j : Fin routes.length, j.val < i.val →
        reMatch (routes.get j).toks url = false := by
  induction routes with
  | nil => simp [matchScan] at h
  | cons r0 rs ih =>
    cases hr : reMatch r0.toks url with
    | true =>
      have hr0 : r = r0 := by
        simp only [matchScan, hr, if_true, Option.some.injEq] at h
        exact h.symm
      subst hr0
      refine ⟨⟨0, by simp⟩, rfl, hr, ?_⟩
      intro j hj
      exact absurd hj (Nat.not_lt_zero _)
    | false =>
      have h' : matchScan url rs = some r := by
        simpa only [matchScan, hr, Bool.false_eq_true, if_false] using h
      obtain ⟨i, hget, hm, hearlier⟩ := ih h'
      refine ⟨⟨i.val + 1, by simp [i.isLt]⟩, hget, hm, ?_⟩
      intro j hj
      match j with
      | ⟨0, h0⟩ => exact hr
      | ⟨k + 1, hk⟩ =>
        have hk' : k < rs.length := by simpa using hk
        exact hearlier ⟨k, hk'⟩ (by simpa using hj)

/-! ### Lemmas: duplicate handling in `queryFor` -/

theorem assocFind_eq_none_iff (acc : List (List Char × Option (List Char)))
    (k : List Char) :
    assocFind acc k = none ↔ acc.any (fun e => e.1 == k) = false := by
  induction acc with
  | nil => simp [assocFind]
  | cons e es ih =>
    cases he : (e.1 == k) with
    | true => simp [assocFind, List.find?, he]
    | false =>
      simp only [assocFind, List.find?, he, List.any_cons, Bool.false_or]
      exact ih

theorem assocFind_append_one (acc : List (List Char × Option (List Char)))
    (kv : List Char × Option (List Char)) (k : List Char) :
    assocFind (acc ++ [kv]) k =
      match assocFind acc k with
      | some v => some v
      | none => if kv.1 == k then some kv.2 else none := by
  induction acc with
  | nil =>
    cases he : (kv.1 == k) <;> simp [assocFind, List.find?, he]
  | cons e es ih =>
    cases he : (e.1 == k) with
    | true => simp [assocFind, List.find?, he]
    | false =>
      simp only [List.cons_append, assocFind, List.find?, he]
      exact ih

/-- What one `queryFold` run computes for a key `k` that is not an
`Object.prototype` property name: the accumulator's value if present, else
the value at the first occurrence of `k` in the decoded pair list. -/
theorem queryFold_find (raws : List (List Char))
    (acc q ps : List (List Char × Option (List Char))) (k : List Char)
    (hk : protoProps.contains k = false)
    (hfold : queryFold acc raws = some q)
    (hparse : raws.mapM parseParam = some ps) :
    assocFind q k =
      match assocFind acc k with
      | some v => some v
      | none => (ps.find? (fun e => e.1 == k)).map Prod.snd := by
  induction raws generalizing acc ps with
  | nil =>
    simp only [queryFold, Option.some.injEq] at hfold
    simp only [List.mapM_nil, Option.pure_def, Option.some.injEq] at hparse
    subst hfold
    subst hparse
    cases hacc : assocFind acc k <;> simp [hacc]
  | cons p raws' ih =>
    cases hp : parseParam p with
    | none => simp [queryFold, hp] at hfold
    | some kv =>
      have hfold' : queryFold (queryInsert acc kv) raws' = some q := by
        simpa only [queryFold, hp] using hfold
      rw [List.mapM_cons, hp] at hparse
      simp only [Option.pure_def, Option.bind_eq_bind, Option.bind_eq_some,
        Option.some.injEq] at hparse
      obtain ⟨kv2, hkv2, ps2, hps2, hcons⟩ := hparse
      subst hkv2
      subst hcons
      have step := ih (queryInsert acc kv) ps2 hfold' hps2
      rw [step]
      cases hkk : (kv.1 == k) with
      | true =>
        have hkeq : kv.1 = k := beq_iff_eq.mp hkk
        have hproto : protoProps.contains kv.1 = false := by rw [hkeq]; exact hk
        cases hacc : acc.any (fun e => e.1 == kv.1) with
        | true =>
          have hins : queryInsert acc kv = acc := by
            simp [queryInsert, hacc]
          rw [hins]
          have hne : assocFind acc k ≠ none := by
            intro hc
            have hfalse := (assocFind_eq_none_iff acc k).mp hc
            rw [hkeq] at hacc
            rw [hfalse] at hacc
            cases hacc
          cases hv : assocFind acc k with
          | none => exact absurd hv hne
          | some v => simp [hv, List.find?_cons, hkk, hkeq]
        | false =>
          have hpm : kv.1 ∉ protoProps := by simpa using hproto
          have hins : queryInsert acc kv = acc ++ [kv] := by
            simp [queryInsert, hpm, hacc]
          have hnone : assocFind acc k = none := by
            rw [assocFind_eq_none_iff, ← hkeq]
            exact hacc
          rw [hins, assocFind_append_one, hnone]
          simp [List.find?_cons, hkk, hnone]
      | false =>
        have hsame : assocFind (queryInsert acc kv) k = assocFind acc k := by
          unfold queryInsert
          split_ifs with hcond
          · rfl
          · rw [assocFind_append_one]
            cases hv : assocFind acc k <;> simp [hv, hkk]
        rw [hsame]
        have hfind : (kv :: ps2).find? (fun e => e.1 == k)
            = ps2.find? (fun e => e.1 == k) := by
          simp [List.find?_cons, hkk]
        rw [hfind]

/-! ### Lemmas: transition engine -/

theorem runHooks_ok (hooks : List Hook) (t : Transition)
    (h : hooks.all (fun hk => !hk.throws) = true) :
    runHooks hooks t = (afterTrace hooks t, true) := by
  induction hooks with
  | nil => rfl
  | cons hk hs ih =>
    have h1 : hk.throws = false := by
      have := List.all_eq_true.mp h hk (by simp)
      simpa using this
    have h2 : hs.all (fun x => !x.throws) = true :=
      List.all_eq_true.mpr fun x hx => List.all_eq_true.mp h x (by simp [hx])
    simp [runHooks, h1, ih h2, afterTrace]

theorem commitNext_prevent (s : RouterState) (t : Transition) (evs : List Ev) :
    ((commitNext s t evs).1).prevent = s.prevent := by
  cases ht : t.next with
  | none => simp [commitNext, ht]
  | some r =>
    cases hq : queryFor t.location with
    | none => simp [commitNext, ht, hq]
    | some q =>
      cases hp : paramsFor s.origin s.base t.location r.path with
      | none => simp [commitNext, ht, hq, hp]
      | some p => simp [commitNext, ht, hq, hp]

theorem commitNext_trace (s : RouterState) (t : Transition) (evs : List Ev) :
    (commitNext s t evs).2.1 = evs := by
  cases ht : t.next with
  | none => simp [commitNext, ht]
  | some r =>
    cases hq : queryFor t.location with
    | none => simp [commitNext, ht, hq]
    | some q =>
      cases hp : paramsFor s.origin s.base t.location r.path with
      | none => simp [commitNext, ht, hq, hp]
      | some p => simp [commitNext, ht, hq, hp]

theorem routeChange_prevent_false (s : RouterState) (t : Transition)
    (h : s.prevent = false) :
    ((routeChange s false t).1).prevent = false := by
  unfold routeChange
  cases hr : t.replace with
  | true =>
    simp only [if_true, Bool.false_eq_true, if_false]
    rw [commitNext_prevent]
  | false =>
    simp only [Bool.false_eq_true, if_false]
    rw [commitNext_prevent]
    exact h

theorem routeChange_trace (s : RouterState) (w : Bool) (t : Transition) :
    (routeChange s w t).2.1 = if t.replace then [Ev.write t.location] else [] := by
  unfold routeChange
  cases hr : t.replace with
  | true =>
    cases w with
    | true => rfl
    | false =>
      simp only [if_true, Bool.false_eq_true, if_false]
      rw [commitNext_trace]
  | false =>
    simp only [Bool.false_eq_true, if_false]
    rw [commitNext_trace]

theorem routeChange_no_hook (s : RouterState) (w : Bool) (t : Transition) :
    ∀ e ∈ (routeChange s w t).2.1, isHookEv e = false := by
  intro e he
  rw [routeChange_trace] at he
  cases hr : t.replace with
  | true =>
    rw [hr] at he
    simp only [if_true, List.mem_singleton] at he
    rw [he]
    rfl
  | false =>
    rw [hr] at he
    simp at he

theorem runHooks_no_write (hooks : List Hook) (t : Transition) :
    ∀ e ∈ (runHooks hooks t).1, isWriteEv e = false := by
  induction hooks with
  | nil => intro e he; simp [runHooks] at he
  | cons hk hs ih =>
    intro e he
    cases hth : hk.throws with
    | true =>
      simp only [runHooks, hth, if_true, List.mem_singleton] at he
      rw [he]
      rfl
    | false =>
      simp only [runHooks, hth, Bool.false_eq_true, if_false, List.mem_cons] at he
      rcases he with rfl | he
      · rfl
      · exact ih e he

theorem mkTransition_replace (s : RouterState) (loc : List Char) (replace : Bool) :
    (mkTransition s loc replace).replace = replace := rfl

theorem change_eq_of_hooks_ok (s : RouterState) (w : Bool) (loc : List Char)
    (replace : Bool) (hok : s.afterHooks.all (fun hk => !hk.throws) = true) :
    change s w loc replace =
      if (routeChange s w (mkTransition s loc replace)).2.2 then
        ((routeChange s w (mkTransition s loc replace)).1, ChangeResult.fulfilled,
          afterTrace s.afterHooks (mkTransition s loc replace)
            ++ (routeChange s w (mkTransition s loc replace)).2.1
            ++ afterTrace s.afterHooks (mkTransition s loc replace))
      else
        ((routeChange s w (mkTransition s loc replace)).1, ChangeResult.fulfilled,
          afterTrace s.afterHooks (mkTransition s loc replace)
            ++ (routeChange s w (mkTransition s loc replace)).2.1 ++ [Ev.warn]) := by
  have hrh := runHooks_ok s.afterHooks (mkTransition s loc replace) hok
  rcases hrc : routeChange s w (mkTransition s loc replace) with ⟨s2, tr2, ok2⟩
  cases ok2 with
  | false => simp [change, hrh, hrc]
  | true => simp [change, hrh, hrc]

/-! ### The claims -/

/-- C1: the claim says every hook registered with `beforeChange` is invoked
during the before phase of every `change` run.  The source's `change` loops
over `_after` in both hook loops and never reads `_before`: with one hook
registered via `beforeChange` and nothing else, the run `change('/x')`
invokes no hook at all (the claim requires one invocation). -/
theorem claim1_before_hooks_not_run :
    exStateC.beforeHooks.length = 1 ∧
    List.countP isHookEv ((change exStateC false "/x".toList false).2.2) = 0 := by
  decide

/-- C2: when no after-hook rejects and the commit (`routeChange`) completes,
the trace of `change` is exactly one pass over the after-hooks in
registration order, then the (hook-free) commit events, then a second
identical pass — each `afterChange` hook runs exactly twice, once
pre-commit and once post-commit, both times with the same transition. -/
theorem claim2_after_hooks_twice (s : RouterState) (w : Bool) (loc : List Char)
    (replace : Bool)
    (hok : s.afterHooks.all (fun hk => !hk.throws) = true)
    (hcommit : (routeChange s w (mkTransition s loc replace)).2.2 = true) :
    (change s w loc replace).2.2 =
      afterTrace s.afterHooks (mkTransition s loc replace)
        ++ (routeChange s w (mkTransition s loc replace)).2.1
        ++ afterTrace s.afterHooks (mkTransition s loc replace) ∧
    (∀ e ∈ (routeChange s w (mkTransition s loc replace)).2.1, isHookEv e = false) ∧
    (change s w loc replace).2.1 = ChangeResult.fulfilled := by
  rw [change_eq_of_hooks_ok s w loc replace hok, hcommit]
  exact ⟨rfl, routeChange_no_hook s w (mkTransition s loc replace), rfl⟩

theorem claim2_after_hooks_twice_witness :
    (exStateA.afterHooks.all (fun hk => !hk.throws) = true) ∧
    (change exStateA false "/x".toList false).2.2 =
      afterTrace exStateA.afterHooks (mkTransition exStateA "/x".toList false)
        ++ (routeChange exStateA false (mkTransition exStateA "/x".toList false)).2.1
        ++ afterTrace exStateA.afterHooks (mkTransition exStateA "/x".toList false) :=
  ⟨by decide,
    (claim2_after_hooks_twice exStateA false "/x".toList false (by decide) (by decide)).1⟩

/-- C3 (counterexample): the claim says the promise returned by `change`
(and by `redirect`) never rejects.  But a hook failure is handled by
`return Promise.reject(error)` inside the `try`, and returning a rejected
promise from an `async` function bypasses the outer `catch`: with one
rejecting after-hook, `redirect('/x')` returns a rejected promise. -/
theorem claim3_counterexample :
    (redirect exStateB false "/x".toList).2.1 = ChangeResult.rejected := by
  decide

/-- C3 (amended): provided no registered hook rejects, the promise returned
by `change` always fulfils — commit-phase throws (a failing history write,
a `URIError` from decoding) are caught by the outer catch and surface only
as the `console.warn` event. -/
theorem claim3_amended (s : RouterState) (w : Bool) (loc : List Char)
    (replace : Bool)
    (hok : s.afterHooks.all (fun hk => !hk.throws) = true) :
    (change s w loc replace).2.1 = ChangeResult.fulfilled := by
  rw [change_eq_of_hooks_ok s w loc replace hok]
  cases (routeChange s w (mkTransition s loc replace)).2.2 <;> rfl

theorem claim3_amended_witness :
    (exStateA.afterHooks.all (fun hk => !hk.throws) = true) ∧
    (change exStateA true "/x".toList true).2.1 = ChangeResult.fulfilled :=
  ⟨by decide, claim3_amended exStateA true "/x".toList true (by decide)⟩

/-- C10: starting from a state with `options.prevent` false, a `change`
whose browser-URL write does not throw always ends with `options.prevent`
false again (the commit sets it only around the write), and when the
`replace` flag is unset no browser-URL write happens at all. -/
theorem claim10_prevent_reset (s : RouterState) (loc : List Char) (replace : Bool)
    (h0 : s.prevent = false) :
    ((change s false loc replace).1).prevent = false ∧
    (replace = false →
      List.countP isWriteEv ((change s false loc replace).2.2) = 0) := by
  rcases hrh : runHooks s.afterHooks (mkTransition s loc replace) with ⟨tr1, ok1⟩
  have htr1 : ∀ e ∈ tr1, isWriteEv e = false := by
    intro e he
    have hw := runHooks_no_write s.afterHooks (mkTransition s loc replace) e
    rw [hrh] at hw
    exact hw he
  cases ok1 with
  | false =>
    have hc : change s false loc replace = (s, ChangeResult.rejected, tr1) := by
      simp [change, hrh]
    rw [hc]
    exact ⟨h0, fun _ => List.countP_eq_zero.mpr fun e he => by simp [htr1 e he]⟩
  | true =>
    rcases hrc : routeChange s false (mkTransition s loc replace) with ⟨s2, tr2, ok2⟩
    have hs2 : s2.prevent = false := by
      have hp := routeChange_prevent_false s (mkTransition s loc replace) h0
      rw [hrc] at hp
      exact hp
    have htr2 : replace = false → tr2 = [] := by
      intro hrep
      have ht := routeChange_trace s false (mkTransition s loc replace)
      rw [hrc] at ht
      simpa [mkTransition_replace, hrep] using ht
    have hcount1 : List.countP isWriteEv tr1 = 0 :=
      List.countP_eq_zero.mpr fun e he => by simp [htr1 e he]
    cases ok2 with
    | false =>
      have hc : change s false loc replace
          = (s2, ChangeResult.fulfilled, tr1 ++ tr2 ++ [Ev.warn]) := by
        simp [change, hrh, hrc]
      rw [hc]
      refine ⟨hs2, fun hrep => ?_⟩
      rw [htr2 hrep]
      simp [List.countP_append, hcount1, List.countP_cons, isWriteEv]
    | true =>
      have hc : change s false loc replace
          = (s2, ChangeResult.fulfilled, tr1 ++ tr2 ++ tr1) := by
        simp [change, hrh, hrc]
      rw [hc]
      refine ⟨hs2, fun hrep => ?_⟩
      rw [htr2 hrep]
      simp [List.countP_append, hcount1]

theorem claim10_prevent_reset_witness :
    (exStateA.prevent = false) ∧
    ((change exStateA false "/x".toList true).1).prevent = false :=
  ⟨by decide, (claim10_prevent_reset exStateA "/x".toList true (by decide)).1⟩

/-- C4 (counterexample): the claim says `normalizePath` is idempotent for
every input.  But the step `('/' + path).replace('//', '/')` collapses only
the first `//`: `a//b//c` normalizes to `/a/b//c`, which normalizes again
to `/a/b/c`. -/
theorem claim4_counterexample :
    normalizePath exOrigin [] true
        (normalizePath exOrigin [] true "a//b//c".toList)
      ≠ normalizePath exOrigin [] true "a//b//c".toList := by
  decide

/-- C4 (amended): `normalizePath` is idempotent on every input whose first
normalization is already in canonical form (origin/base stripping is a
no-op on it, it has no `/?` and no `//`, starts with `/`, has no trailing
slash, and no `?` when queries are dropped). -/
theorem claim4_amended (origin base : List Char) (rq : Bool) (x : List Char)
    (h : normalForm origin base rq (normalizePath origin base rq x) = true) :
    normalizePath origin base rq (normalizePath origin base rq x)
      = normalizePath origin base rq x :=
  normalizePath_fixed origin base rq (normalizePath origin base rq x) h

theorem claim4_amended_witness :
    (normalForm exOrigin [] true (normalizePath exOrigin [] true "/a/b".toList) = true) ∧
    normalizePath exOrigin [] true (normalizePath exOrigin [] true "/a/b".toList)
      = normalizePath exOrigin [] true "/a/b".toList :=
  ⟨by decide, claim4_amended exOrigin [] true "/a/b".toList (by decide)⟩

/-- C5 (counterexample): the claim says every query-dropped result is `/`
or `/segment(/segment)*` with nonempty segments and no trailing slash.
But `a//b//c` normalizes to `/a/b//c` (an empty segment survives), and
`a//?x` normalizes to `/a/` (a trailing slash survives). -/
theorem claim5_counterexample :
    normalizePath exOrigin [] true "a//b//c".toList = "/a/b//c".toList ∧
    occursIn "//".toList (normalizePath exOrigin [] true "a//b//c".toList) = true ∧
    normalizePath exOrigin [] true "a//?x".toList = "/a/".toList := by
  decide

/-- C5 (amended): what does hold of every query-dropped result: it is
nonempty, begins with exactly one `/` (never `//`), and contains no `?`;
empty internal segments and a trailing slash are possible. -/
theorem claim5_amended (origin base x : List Char) :
    (normalizePath origin base true x).isEmpty = false ∧
    (normalizePath origin base true x).head? = some '/' ∧
    List.isPrefixOf ['/', '/'] (normalizePath origin base true x) = false ∧
    (normalizePath origin base true x).all (fun c => c != '?') = true :=
  normalizePath_shape origin base x

/-- C6 (counterexample): the claim says every template segment beginning
with `:` compiles to a capture matching one whole non-slash segment.  But
the rewriting replaces only `:` followed by letters: in `/:x1` the suffix
`1` stays literal, so `/zzz` (one nonempty non-slash segment) does not
match while `/ab1` does. -/
theorem claim6_counterexample :
    routeTest exOrigin [] "/:x1".toList "/zzz".toList = false ∧
    routeTest exOrigin [] "/:x1".toList "/ab1".toList = true := by
  decide

/-- C6 (amended): for templates whose segments are each either `:`+letters
or literal segments over ASCII non-metacharacters, and candidate paths of
nonempty slash-free segments (both in canonical form), the compiled
pattern matches exactly when the segment lists align — captures accept any
candidate segment, literal segments must agree up to ASCII case, and the
anchored pattern forces the alignment to cover the whole path.  The ASCII
restriction on template literals is where the modelled folding coincides
with the `i` flag: JavaScript also folds non-ASCII case pairs in non-ASCII
pattern literals (e.g. `/é` matches `/É`), which `lowChar` does not
model. -/
theorem claim6_compile_pattern (origin base : List Char)
    (ts us : List (List Char))
    (hts : segsOkT ts = true) (hta : segsAscii ts = true)
    (hus : segsOkU us = true)
    (hct : normalForm origin base true (pathOfSegs ts) = true)
    (hcu : normalForm origin base true (pathOfSegs us) = true) :
    routeTest origin base (pathOfSegs ts) (pathOfSegs us)
      = alignb segMatches ts us := by
  unfold routeTest
  rw [normalizePath_fixed origin base true _ hct,
    normalizePath_fixed origin base true _ hcu]
  exact reMatch_tokens_pathOfSegs ts us hts hus

theorem claim6_compile_pattern_witness :
    (segsOkT ["users".toList, ":id".toList] = true ∧
      segsAscii ["users".toList, ":id".toList] = true) ∧
    routeTest exOrigin [] (pathOfSegs ["users".toList, ":id".toList])
        (pathOfSegs ["USERS".toList, "42".toList])
      = alignb segMatches ["users".toList, ":id".toList]
          ["USERS".toList, "42".toList] :=
  ⟨by decide,
    claim6_compile_pattern exOrigin [] ["users".toList, ":id".toList]
      ["USERS".toList, "42".toList] (by decide) (by decide) (by decide) (by decide)
      (by decide)⟩

/-- C7 (counterexample): the claim says a template with N segments never
matches a path with a different segment count.  But an unescaped `.` in a
literal segment is a regex wildcard that also matches `/`: the one-segment
template `/a.b` matches the two-segment location `/a/b`. -/
theorem claim7_counterexample :
    routeTest exOrigin [] "/a.b".toList "/a/b".toList = true ∧
    (splitSlash (normalizePath exOrigin [] true "/a.b".toList)).length = 1 ∧
    (splitSlash (normalizePath exOrigin [] true "/a/b".toList)).length = 2 := by
  decide

/-- C7 (amended): for templates without unescaped regex metacharacters in
literal segments (and capture segments of the `:letters` form), a template
with N segments never matches a canonical path with a different number of
segments. -/
theorem claim7_segment_count (origin base : List Char)
    (ts us : List (List Char))
    (hts : segsOkT ts = true) (hus : segsOkU us = true)
    (hct : normalForm origin base true (pathOfSegs ts) = true)
    (hcu : normalForm origin base true (pathOfSegs us) = true)
    (hlen : ts.length ≠ us.length) :
    routeTest origin base (pathOfSegs ts) (pathOfSegs us) = false := by
  unfold routeTest
  rw [normalizePath_fixed origin base true _ hct,
    normalizePath_fixed origin base true _ hcu,
    reMatch_tokens_pathOfSegs ts us hts hus]
  exact alignb_ne_length segMatches ts us hlen

theorem claim7_segment_count_witness :
    (["a".toList, ":x".toList, "b".toList, ":y".toList].length
      ≠ ["a".toList, "1".toList, "b".toList].length) ∧
    routeTest exOrigin [] (pathOfSegs ["a".toList, ":x".toList, "b".toList, ":y".toList])
        (pathOfSegs ["a".toList, "1".toList, "b".toList]) = false :=
  ⟨by decide,
    claim7_segment_count exOrigin []
      ["a".toList, ":x".toList, "b".toList, ":y".toList]
      ["a".toList, "1".toList, "b".toList]
      (by decide) (by decide) (by decide) (by decide) (by decide)⟩

/-- C8: `match` normalizes the candidate (dropping the query) and scans the
table in registration order: it returns `none` exactly when no registered
pattern matches, and any returned route is the earliest-registered one
whose pattern matches — all earlier routes fail, so when two templates both
match, the earlier registration wins. -/
theorem claim8_first_match (routes : List Route) (origin base path : List Char) :
    (matchRoute routes origin base path = none ↔
      ∀ r ∈ routes, reMatch r.toks (normalizePath origin base true path) = false) ∧
    ∀ r : Route, matchRoute routes origin base path = some r →
      ∃ i : Fin routes.length, routes.get i = r ∧
        reMatch r.toks (normalizePath origin base true path) = true ∧
        ∀ j : Fin routes.length, j.val < i.val →
          reMatch (routes.get j).toks (normalizePath origin base true path) = false :=
  ⟨matchScan_eq_none_iff (normalizePath origin base true path) routes,
    fun r h => matchScan_eq_some (normalizePath origin base true path) routes r h⟩

theorem claim8_first_match_witness :
    matchRoute exRoutes1 exOrigin [] "/zzz".toList = none :=
  (claim8_first_match exRoutes1 exOrigin [] "/zzz".toList).1.mpr (by decide)

/-- C9 (counterexample): the claim says the first occurrence of a
duplicated key is kept for every location.  But the duplicate check
`query[key] === undefined` sees properties inherited from
`Object.prototype`: for the key `toString` even the first occurrence is
dropped, and the result is empty. -/
theorem claim9_counterexample :
    queryFor "/p?toString=1&toString=2".toList = some [] := by
  decide

/-- C9 (amended): for every location on which `queryFor` succeeds and every
key that is not an `Object.prototype` property name, the resulting mapping
holds the value of the key's first occurrence in the query string; later
occurrences are ignored. -/
theorem claim9_first_occurrence (loc k : List Char)
    (q ps : List (List Char × Option (List Char)))
    (hk : protoProps.contains k = false)
    (hq : queryFor loc = some q)
    (hp : queryPairs loc = some ps) :
    assocFind q k = (ps.find? (fun e => e.1 == k)).map Prod.snd := by
  by_cases hemp : (querySearch loc).isEmpty = true
  · have hq' : q = [] := by
      simp only [queryFor, hemp, if_true, Option.some.injEq] at hq
      exact hq.symm
    have hp' : ps = [] := by
      simp only [queryPairs, hemp, if_true, Option.some.injEq] at hp
      exact hp.symm
    subst hq'
    subst hp'
    rfl
  · have hemp' : (querySearch loc).isEmpty = false := by
      cases hv : (querySearch loc).isEmpty with
      | true => exact absurd hv hemp
      | false => rfl
    have hq' : queryFold [] (splitOnChar '&' (querySearch loc)) = some q := by
      simpa only [queryFor, hemp', Bool.false_eq_true, if_false] using hq
    have hp' : (splitOnChar '&' (querySearch loc)).mapM parseParam = some ps := by
      simpa only [queryPairs, hemp', Bool.false_eq_true, if_false] using hp
    have key := queryFold_find (splitOnChar '&' (querySearch loc)) [] q ps k hk hq' hp'
    rw [key]
    rfl

theorem claim9_first_occurrence_witness :
    (queryFor "/p?a=1&a=2".toList = some [("a".toList, some "1".toList)]) ∧
    assocFind [("a".toList, some "1".toList)] "a".toList =
      (([("a".toList, some "1".toList), ("a".toList, some "2".toList)]).find?
        (fun e => e.1 == "a".toList)).map Prod.snd :=
  ⟨by decide,
    claim9_first_occurrence "/p?a=1&a=2".toList "a".toList
      [("a".toList, some "1".toList)]
      [("a".toList, some "1".toList), ("a".toList, some "2".toList)]
      (by decide) (by decide) (by decide)⟩

end VRouter
